import Mathlib

/-!
Shallow embedding of the dice-game MDP and its policy-iteration agent
(`src/game/dice_game.py`, `src/agent/dice_game_agent.py`), together with
theorems settling the specification claims about them.

Conventions of the embedding:
* python tuples of die values become `List Int`; tuples of die indices become
  `List ℕ`;
* python floats become `ℚ` (all arithmetic appearing in the program is exact
  rational arithmetic on the given inputs);
* `np.random.choice` is modelled by passing the drawn values as an explicit
  `drawn : List Int` argument;
* functions that can raise (`ValueError` on an unknown state/action,
  `IndexError` on an out-of-range list index, `TypeError` on unpacking a
  non-tuple) return `Except String _`;
* the agent's unbounded `while` loops take an explicit fuel argument.
-/

/-- Embedding of `itertools.combinations_with_replacement(xs, k)`:
all selections of `k` elements of `xs` with repetition, with positions in
`xs` non-decreasing, in the lexicographic order of positions. -/
def combRep {α : Type} : ℕ → List α → List (List α)
  | 0, _ => [[]]
  | k+1, xs => xs.tails.flatMap (fun t =>
      match t with
      | [] => []
      | y :: ys => (combRep k (y :: ys)).map (fun l => y :: l))

/-- Embedding of `itertools.combinations(xs, k)`: all selections of `k`
elements of `xs` without repetition, with positions strictly increasing,
in the lexicographic order of positions. -/
def combos {α : Type} : ℕ → List α → List (List α)
  | 0, _ => [[]]
  | k+1, xs => xs.tails.flatMap (fun t =>
      match t with
      | [] => []
      | y :: ys => (combos k ys).map (fun l => y :: l))

/-- Embedding of `np.sort` on an integer vector (ascending). -/
def sortInt (l : List Int) : List Int := List.insertionSort (· ≤ ·) l

/-- Configuration of a `DiceGame` (the constructor arguments after
defaulting): number of dice, number of sides, the value of each face, the
bias of each face, and the re-roll penalty. -/
structure Game where
  dice : ℕ
  sides : ℕ
  values : List Int
  biases : List ℚ
  penalty : ℚ
deriving DecidableEq

/-- Embedding of the dict
`self.__opposite_sides = dict(zip(values, reversed(values)))` followed by a
lookup: pairs each value with the value at the mirrored position; on
duplicate keys the last pair wins, exactly as for a python dict
comprehension.  A key that is absent (python `KeyError`) is sent to `0`;
the program only ever looks up values of the game. -/
def oppositeSides (g : Game) (v : Int) : Int :=
  match (g.values.zip g.values.reverse).reverse.find? (fun p => p.1 == v) with
  | some p => p.2
  | none => 0

/-- Embedding of `DiceGame.states`:
`combinations_with_replacement(values, dice)`. -/
def statesList (g : Game) : List (List Int) := combRep g.dice g.values

/-- Embedding of `DiceGame.actions`: the empty hold `()` followed by
`combinations(range(dice), i)` for `i = 1 .. dice`. -/
def actionsList (g : Game) : List (List ℕ) :=
  [] :: (List.range g.dice).flatMap (fun i => combos (i+1) (List.range g.dice))

/-- Embedding of `DiceGame.__final_score`: take the distinct values of the
hand with their multiplicities (`np.unique`), replace every value occurring
more than once by its opposite side, and sum the unique values plus the
substituted values times their multiplicities. -/
def finalScore (g : Game) (s : List Int) : Int :=
  let ss := sortInt s
  let u := ss.dedup
  (u.filter (fun v => ss.count v = 1)).sum
    + ((u.filter (fun v => 1 < ss.count v)).map
        (fun v => oppositeSides g v * (ss.count v : Int))).sum

/-- Embedding of `DiceGame.__flip_duplicates`: if any value occurs more than
once in the current dice, replace each die showing such a value by its
opposite side; then sort the dice. -/
def flipDuplicates (g : Game) (cur : List Int) : List Int :=
  let cur' :=
    if cur.any (fun x => 1 < cur.count x) then
      cur.map (fun x => if 1 < cur.count x then oppositeSides g x else x)
    else cur
  sortInt cur'

/-- Embedding of `state_as_array[mask]` in `get_next_states`: the values of
`s` at the held indices (the indices listed in the action), in increasing
index order, as boolean-mask selection does. -/
def heldVals (g : Game) (s : List Int) (a : List ℕ) : List Int :=
  ((List.range g.dice).filter (fun i => a.contains i)).map (fun i => s.getD i 0)

/-- Embedding of `scipy.stats.multinomial.pmf(bincount(l), k, b)`: the
multinomial probability `k! * prod over faces i of b_i ^ c_i / c_i!` where
`c_i` is the number of occurrences of face index `i` in the index list `l`. -/
def multinomPMF (b : List ℚ) (k : ℕ) (l : List ℕ) : ℚ :=
  (k.factorial : ℚ) *
    ∏ i in Finset.range b.length, (b.getD i 0) ^ (l.count i) / ((l.count i).factorial : ℚ)

/-- Embedding of `DiceGame.get_next_states(state, action)`.  Validates the
state and then the action (python `ValueError`); on the all-hold action
returns the sentinel `[None]`, the terminal flag, the final score and
probability 1; otherwise enumerates the rerolls of the unheld dice together
with their multinomial probabilities and the penalty reward. -/
def getNextStates (g : Game) (s : List Int) (a : List ℕ) :
    Except String (List (Option (List Int)) × Bool × ℚ × List ℚ) :=
  if s ∈ statesList g then
    if a ∈ actionsList g then
      if a.length = g.dice then
        .ok ([none], true, ((finalScore g s : ℚ)), [(1:ℚ)])
      else
        let k := g.dice - a.length
        let ns := (combRep k g.values).map
          (fun r => some (sortInt (heldVals g s a ++ r)))
        let ps := (combRep k (List.range g.sides)).map
          (fun l => multinomPMF g.biases k l)
        .ok (ns, false, -g.penalty, ps)
    else .error "action not a valid action for current game"
  else .error "state not a valid state for current game"

/-- Mutable state of a `DiceGame` object: the `__game_over` flag, the
`score`, and the `__current_dice`. -/
structure MS where
  gameOver : Bool
  score : ℚ
  dice : List Int
deriving DecidableEq

/-- Return value of `DiceGame.roll`: either the bare `0` returned by the
`if self.__game_over` guard, or the `(state, game_over)` tuple. -/
inductive RollRet where
  | zero : RollRet
  | pair : List Int → Bool → RollRet
deriving DecidableEq

/-- Embedding of the masked assignment
`self.__current_dice[mask] = np.random.choice(...)` in `roll`: walk the
dice positions in order, keep the value at positions listed in the action,
and replace the value at every other position by the next drawn value. -/
def writeMasked : List Int → List ℕ → ℕ → List Int → List Int
  | [], _, _, _ => []
  | c :: rest, a, p, drawn =>
    if a.contains p then c :: writeMasked rest a (p+1) drawn
    else drawn.headD 0 :: writeMasked rest a (p+1) drawn.tail

/-- Embedding of `DiceGame.roll(action)`; `drawn` stands for the values
produced by `np.random.choice`.  Validates the action, returns the bare `0`
when the game-over flag is set, applies the duplicate flip and adds the
dice sum to the score on the all-hold action, and otherwise replaces the
unheld dice, sorts, and subtracts the penalty.  Note that the game-over
flag is never assigned here. -/
def roll (g : Game) (ms : MS) (a : List ℕ) (drawn : List Int) :
    Except String (MS × RollRet) :=
  if a ∈ actionsList g then
    if ms.gameOver then .ok (ms, RollRet.zero)
    else if a.length = g.dice then
      let d' := flipDuplicates g ms.dice
      .ok ({ gameOver := ms.gameOver, score := ms.score + (d'.sum : ℚ), dice := d' },
           RollRet.pair d' true)
    else
      let nd := sortInt (writeMasked ms.dice a 0 drawn)
      .ok ({ gameOver := ms.gameOver, score := ms.score - g.penalty, dice := nd },
           RollRet.pair nd false)
  else .error "action not a valid action for current game"

/-- Embedding of `DiceGame.reset()`: clear the game-over flag, set the score
to the penalty, zero the dice, and perform one `roll()` with the empty
action, unpacking its `(dice, game_over)` result (unpacking the bare `0`
would be a python `TypeError`). -/
def resetE (g : Game) (drawn : List Int) : Except String (MS × List Int) :=
  let ms0 : MS := { gameOver := false, score := g.penalty, dice := List.replicate g.dice 0 }
  match roll g ms0 [] drawn with
  | .ok (ms', RollRet.pair d _) => .ok (ms', d)
  | .ok (_, RollRet.zero) => .error "TypeError: cannot unpack int"
  | .error e => .error e

/-- Machine states of a `DiceGame` reachable through any sequence of
`reset()` and `roll(action)` calls after construction (the constructor
itself ends with a `reset()`). -/
inductive Reachable (g : Game) : MS → Prop
  | reset (drawn : List Int) (ms : MS) (d : List Int)
      (h : resetE g drawn = .ok (ms, d)) : Reachable g ms
  | roll (ms : MS) (a : List ℕ) (drawn : List Int) (ms' : MS) (r : RollRet)
      (hr : Reachable g ms) (h : roll g ms a drawn = .ok (ms', r)) :
      Reachable g ms'

/-- Update of the python dict `v[state] = x` for a value function. -/
def updV (v : List Int → ℚ) (s : List Int) (x : ℚ) : List Int → ℚ :=
  fun t => if t = s then x else v t

/-- Update of the python dict `policy[state] = a`. -/
def updP (p : List Int → List ℕ) (s : List Int) (a : List ℕ) : List Int → List ℕ :=
  fun t => if t = s then a else p t

/-- Embedding of the Bellman one-step lookahead shared by
`__policy_evaluation` and `__policy_improvement` (the `for i in
range(len(new_states))` accumulation): on a terminal transition each entry
contributes `reward + gamma * v[state]`; otherwise entry `i` contributes
`probabilities[i] * (reward + gamma * v[new_states[i]])`. -/
def bellmanE (g : Game) (gam : ℚ) (v : List Int → ℚ) (s : List Int) (a : List ℕ) :
    Except String ℚ := do
  let r ← getNextStates g s a
  let ns := r.1
  let go := r.2.1
  let rew := r.2.2.1
  let ps := r.2.2.2
  if go then
    pure (((List.range ns.length).map (fun _ => rew + gam * v s)).sum)
  else
    pure (((List.range ns.length).map (fun i =>
      ps.getD i 0 * (rew + gam * (match ns.getD i none with
        | some t => v t
        | none => 0)))).sum)

/-- Embedding of the body of the `for state in self.game.states` loop of
`__policy_evaluation`, acting on the accumulator `(v, delta, converged)`:
compute the Bellman candidate, replace `v[state]` only if the candidate is
strictly greater, extend `delta`, and set `converged` as soon as `delta`
falls below `theta`. -/
def sweepStep (g : Game) (gam th : ℚ) (pol : List Int → List ℕ)
    (acc : (List Int → ℚ) × ℚ × Bool) (s : List Int) :
    Except String ((List Int → ℚ) × ℚ × Bool) := do
  let v := acc.1
  let dlt := acc.2.1
  let conv := acc.2.2
  let cand ← bellmanE g gam v s (pol s)
  let v' := if v s < cand then updV v s cand else v
  let dlt' := max dlt |v s - v' s|
  let conv' := if dlt' < th then true else conv
  pure (v', dlt', conv')

/-- Embedding of one iteration of the `while not converged` loop of
`__policy_evaluation`: a full sweep over all states starting from
`delta = 0`, threading `(v, delta, converged)` through `sweepStep`. -/
def evalSweep (g : Game) (gam th : ℚ) (v : List Int → ℚ) (pol : List Int → List ℕ) :
    Except String ((List Int → ℚ) × ℚ × Bool) :=
  (statesList g).foldlM (sweepStep g gam th pol) (v, 0, false)

/-- Embedding of `__policy_evaluation`: repeat sweeps until one of them sets
the `converged` flag; `fuel` bounds the number of sweeps (the python loop is
unbounded). -/
def policyEval (g : Game) (gam th : ℚ) :
    ℕ → (List Int → ℚ) → (List Int → List ℕ) → Except String (List Int → ℚ)
  | 0, _, _ => .error "out of fuel"
  | fuel+1, v, pol => do
    let r ← evalSweep g gam th v pol
    if r.2.2 then pure r.1 else policyEval g gam th fuel r.1 pol

/-- Embedding of a python list subscript `l[i]` with an `Int` index:
non-negative indices are positions from the front, indices in
`[-len, -1]` are positions from the back, anything else is an
`IndexError`. -/
def pythonGet {α : Type} (l : List α) (i : Int) : Except String α :=
  if 0 ≤ i then
    match l.get? i.toNat with
    | some x => .ok x
    | none => .error "IndexError"
  else if -(l.length : Int) ≤ i then
    match l.get? (i + l.length).toNat with
    | some x => .ok x
    | none => .error "IndexError"
  else .error "IndexError"

/-- Embedding of the body of the `for state in self.game.states` loop of
`__policy_improvement`, acting on `(stable, policy)`: look up the candidate
action `self.game.actions[action_index]`, compute its one-step value with
the current value function, adopt it where it strictly improves on
`v[state]`, and clear `stable` when the state's action changed. -/
def improveStep (g : Game) (gam : ℚ) (idx : Int) (v : List Int → ℚ)
    (acc : Bool × (List Int → List ℕ)) (s : List Int) :
    Except String (Bool × (List Int → List ℕ)) := do
  let stable := acc.1
  let pol := acc.2
  let old := pol s
  let na ← pythonGet (actionsList g) idx
  let val ← bellmanE g gam v s na
  let pol' := if v s < val then updP pol s na else pol
  let stable' := if old ≠ pol' s then false else stable
  pure (stable', pol')

/-- Embedding of `__policy_improvement(action_index, v, policy)`: decrement
the action index, then sweep over all states with `improveStep`, returning
the new index, the stability flag and the updated policy. -/
def policyImprovement (g : Game) (gam : ℚ) (idx : Int) (v : List Int → ℚ)
    (pol : List Int → List ℕ) :
    Except String (Int × Bool × (List Int → List ℕ)) := do
  let i := idx - 1
  let r ← (statesList g).foldlM (improveStep g gam i v) (true, pol)
  pure (i, r.1, r.2)

/-- Embedding of the `while not policy_stable` loop of `__policy_iteration`:
evaluate the policy, improve it once, stop when improvement reports
stability; `fuel` bounds the number of rounds. -/
def policyIterLoop (g : Game) (gam th : ℚ) (evalFuel : ℕ) :
    ℕ → Int → (List Int → ℚ) → (List Int → List ℕ) →
    Except String ((List Int → ℚ) × (List Int → List ℕ))
  | 0, _, _, _ => .error "out of fuel"
  | fuel+1, i, v, pol => do
    let v' ← policyEval g gam th evalFuel v pol
    let r ← policyImprovement g gam i v' pol
    if r.2.1 then pure (v', r.2.2) else policyIterLoop g gam th evalFuel fuel r.1 v' r.2.2

/-- Embedding of `__policy_iteration()` including its initialisation: the
action cursor starts at the last action index, every state's value starts
at `0`, and every state's policy entry starts at `actions[len(actions)-1]`. -/
def policyIteration (g : Game) (gam th : ℚ) (evalFuel fuel : ℕ) :
    Except String ((List Int → ℚ) × (List Int → List ℕ)) :=
  policyIterLoop g gam th evalFuel fuel ((actionsList g).length - 1 : ℕ)
    (fun _ => 0) (fun _ => (actionsList g).getD ((actionsList g).length - 1) [])

/-- Default configuration of the game: 3 dice, 6 sides, values 1..6,
uniform biases, penalty 1. -/
def defaultGame : Game :=
  { dice := 3, sides := 6, values := [1,2,3,4,5,6],
    biases := [1/6,1/6,1/6,1/6,1/6,1/6], penalty := 1 }

/-- Miniature configuration from the specification's end-to-end scenario:
1 die, 2 sides, values `[1,2]`, biases `[1/2,1/2]`, penalty 1. -/
def miniGame : Game :=
  { dice := 1, sides := 2, values := [1,2], biases := [1/2,1/2], penalty := 1 }

/-- Degenerate configuration with zero dice (accepted by the constructor:
only the lengths of `values` and `biases` are validated). -/
def zeroDiceGame : Game :=
  { dice := 0, sides := 1, values := [7], biases := [1], penalty := 1 }

/-! ### Generic helper lemmas -/

/-- Looking up a key in an association list whose keys are distinct returns
the unique pair with that key. -/
theorem find?_of_nodup_keys (l : List (Int × Int)) (p : Int × Int)
    (hk : (l.map Prod.fst).Nodup) (hp : p ∈ l) :
    l.find? (fun q => q.1 == p.1) = some p := by
  induction l with
  | nil => cases hp
  | cons q l ih =>
    rcases List.mem_cons.mp hp with h | h
    · subst h
      exact List.find?_cons_of_pos l (by simp)
    · have hq : q.1 ≠ p.1 := by
        intro he
        have : p.1 ∈ l.map Prod.fst := List.mem_map_of_mem Prod.fst h
        rw [← he] at this
        exact (List.nodup_cons.mp hk).1 this
      rw [List.find?_cons_of_neg l (by simpa using hq)]
      exact ih (List.nodup_cons.mp hk).2 h

/-- With distinct face values, the opposite-sides dict pairs the value at
index `i` with the value at index `length - 1 - i`. -/
theorem oppositeSides_getD (g : Game) (hnd : g.values.Nodup)
    (i : ℕ) (hi : i < g.values.length) :
    oppositeSides g (g.values.getD i 0) = g.values.getD (g.values.length - 1 - i) 0 := by
  have hrev : i < g.values.reverse.length := by
    rw [List.length_reverse]; exact hi
  have hzip : i < (g.values.zip g.values.reverse).length := by
    rw [List.length_zip, List.length_reverse, min_self]; exact hi
  have hj : g.values.length - 1 - i < g.values.length := by omega
  have hpair : (g.values.getD i 0, g.values.getD (g.values.length - 1 - i) 0)
      ∈ (g.values.zip g.values.reverse).reverse := by
    rw [List.mem_reverse]
    have hm : (g.values.zip g.values.reverse)[i] ∈ g.values.zip g.values.reverse :=
      List.getElem_mem hzip
    have h1 : (g.values.zip g.values.reverse)[i]
        = (g.values[i], (g.values.reverse)[i]) := List.getElem_zip
    have h2 : (g.values.reverse)[i] = g.values[g.values.length - 1 - i] := by
      rw [List.getElem_reverse]
    rw [List.getD_eq_getElem g.values 0 hi, List.getD_eq_getElem g.values 0 hj]
    rw [h1, h2] at hm
    exact hm
  have hkeys : ((g.values.zip g.values.reverse).reverse.map Prod.fst).Nodup := by
    rw [List.map_reverse]
    exact List.nodup_reverse.mpr
      (by rw [List.map_fst_zip _ _ (by rw [List.length_reverse])]; exact hnd)
  have := find?_of_nodup_keys _ _ hkeys hpair
  unfold oppositeSides
  rw [this]

/-- The opposite of a value of the game, described positionally: the value
whose index mirrors the index of `v` in the value list. -/
def specOpposite (g : Game) (v : Int) : Int :=
  g.values.getD (g.sides - 1 - g.values.indexOf v) 0

/-- For a value of the game, the opposite-sides dict agrees with the
positional description (given distinct values and the validated
`len(values) == sides`). -/
theorem oppositeSides_eq_specOpposite (g : Game) (hnd : g.values.Nodup)
    (hlen : g.values.length = g.sides) (v : Int) (hv : v ∈ g.values) :
    oppositeSides g v = specOpposite g v := by
  have hidx : g.values.indexOf v < g.values.length := List.indexOf_lt_length.mpr hv
  have hget : g.values.getD (g.values.indexOf v) 0 = v := by
    rw [List.getD_eq_getElem g.values 0 hidx]
    exact List.indexOf_get hidx
  have := oppositeSides_getD g hnd (g.values.indexOf v) hidx
  rw [hget] at this
  rw [this, specOpposite, hlen]

/-- C1: for every valid state `s`, `finalScore(s)` equals the sum over each
distinct value occurring exactly once of the value itself, plus over each
distinct value occurring more than once of its opposite (the value at the
mirrored index) times its occurrence count; and in the default game
`finalScore((2,2,5)) = 15`. -/
theorem c1_final_score :
    (∀ (g : Game) (s : List Int), g.values.Nodup → g.values.length = g.sides →
      (∀ x ∈ s, x ∈ g.values) →
      finalScore g s
        = (s.dedup.filter (fun v => s.count v = 1)).sum
          + ((s.dedup.filter (fun v => 1 < s.count v)).map
              (fun v => specOpposite g v * (s.count v : Int))).sum)
    ∧ finalScore defaultGame [2,2,5] = 15 := by
  constructor
  · intro g s hnd hlen hmem
    have hperm : (sortInt s).Perm s := List.perm_insertionSort _ s
    have hcnt : ∀ v : Int, (sortInt s).count v = s.count v := fun v => hperm.count_eq v
    have hsub : ∀ v ∈ (sortInt s).dedup, v ∈ g.values :=
      fun v hv => hmem v (hperm.subset (List.mem_dedup.mp hv))
    show ((sortInt s).dedup.filter (fun v => (sortInt s).count v = 1)).sum
        + (((sortInt s).dedup.filter (fun v => 1 < (sortInt s).count v)).map
            (fun v => oppositeSides g v * ((sortInt s).count v : Int))).sum
        = _
    have h1 : ((sortInt s).dedup.filter (fun v => (sortInt s).count v = 1))
        = ((sortInt s).dedup.filter (fun v => s.count v = 1)) :=
      List.filter_congr (fun x _ => by rw [hcnt])
    have h1' : ((sortInt s).dedup.filter (fun v => 1 < (sortInt s).count v))
        = ((sortInt s).dedup.filter (fun v => 1 < s.count v)) :=
      List.filter_congr (fun x _ => by rw [hcnt])
    have h2 : (((sortInt s).dedup.filter (fun v => s.count v = 1))).Perm
        (s.dedup.filter (fun v => s.count v = 1)) := hperm.dedup.filter _
    have h3 : ((sortInt s).dedup.filter (fun v => 1 < s.count v)).map
          (fun v => oppositeSides g v * ((sortInt s).count v : Int))
        = ((sortInt s).dedup.filter (fun v => 1 < s.count v)).map
          (fun v => specOpposite g v * (s.count v : Int)) := by
      apply List.map_congr_left
      intro x hx
      have hxv : x ∈ g.values := hsub x (List.mem_of_mem_filter hx)
      rw [hcnt, oppositeSides_eq_specOpposite g hnd hlen x hxv]
    have h4 : (((sortInt s).dedup.filter (fun v => 1 < s.count v)).map
          (fun v => specOpposite g v * (s.count v : Int))).Perm
        ((s.dedup.filter (fun v => 1 < s.count v)).map
          (fun v => specOpposite g v * (s.count v : Int))) :=
      (hperm.dedup.filter _).map _
    rw [h1, h1', h2.sum_eq, h3, h4.sum_eq]
  · decide

/-- Witness for C1: the general formula instantiated at the default game and
the state `(2,2,5)`. -/
theorem c1_final_score_witness :
    finalScore defaultGame [2,2,5]
      = (([2,2,5] : List Int).dedup.filter (fun v => ([2,2,5] : List Int).count v = 1)).sum
        + ((([2,2,5] : List Int).dedup.filter (fun v => 1 < ([2,2,5] : List Int).count v)).map
            (fun v => specOpposite defaultGame v * (([2,2,5] : List Int).count v : Int))).sum :=
  c1_final_score.1 defaultGame [2,2,5] (by decide) (by decide) (by decide)

/-- C2: for every valid state and the all-hold (terminal) action,
`get_next_states` returns exactly one sentinel next state, the terminal
flag, reward `finalScore(state)`, and the single probability 1. -/
theorem c2_terminal_next_states (g : Game) (s : List Int) (a : List ℕ)
    (hs : s ∈ statesList g) (ha : a ∈ actionsList g) (hl : a.length = g.dice) :
    getNextStates g s a = .ok ([none], true, ((finalScore g s : ℚ)), [(1:ℚ)]) := by
  unfold getNextStates
  rw [if_pos hs, if_pos ha, if_pos hl]

/-- Witness for C2 at the miniature game, state `(2,)`, action `(0,)`. -/
theorem c2_terminal_next_states_witness :
    getNextStates miniGame [2] [0]
      = .ok ([none], true, ((finalScore miniGame [2] : ℚ)), [(1:ℚ)]) :=
  c2_terminal_next_states miniGame [2] [0] (by decide) (by decide) (by decide)

/-- C5: `get_next_states` fails exactly when the state is not in the state
list or the action is not in the action list, and returns a result on every
listed state and action. -/
theorem c5_next_states_errors (g : Game) (s : List Int) (a : List ℕ) :
    ((∃ e, getNextStates g s a = .error e) ↔ (s ∉ statesList g ∨ a ∉ actionsList g))
    ∧ (s ∈ statesList g → a ∈ actionsList g → ∃ r, getNextStates g s a = .ok r) := by
  by_cases hs : s ∈ statesList g
  · by_cases ha : a ∈ actionsList g
    · have hok : ∃ r, getNextStates g s a = .ok r := by
        rw [getNextStates, if_pos hs, if_pos ha]
        by_cases hl : a.length = g.dice
        · rw [if_pos hl]; exact ⟨_, rfl⟩
        · rw [if_neg hl]; exact ⟨_, rfl⟩
      refine ⟨⟨fun ⟨e, he⟩ => ?_, fun h => ?_⟩, fun _ _ => hok⟩
      · obtain ⟨r, hr⟩ := hok
        rw [hr] at he
        cases he
      · cases h <;> contradiction
    · refine ⟨⟨fun _ => Or.inr ha,
        fun _ => ⟨"action not a valid action for current game", ?_⟩⟩,
        fun _ ha' => absurd ha' ha⟩
      rw [getNextStates, if_pos hs, if_neg ha]
  · refine ⟨⟨fun _ => Or.inl hs,
      fun _ => ⟨"state not a valid state for current game", ?_⟩⟩,
      fun hs' => absurd hs' hs⟩
    rw [getNextStates, if_neg hs]

/-- Witness for C5: the miniature game returns a result on the valid pair
consisting of state `(1,)` and the empty action. -/
theorem c5_next_states_errors_witness :
    (getNextStates miniGame [1] []).isOk = true := by
  obtain ⟨r, hr⟩ := (c5_next_states_errors miniGame [1] []).2 (by decide) (by decide)
  rw [hr]
  rfl

/-- Counterexample to C6: with zero dice (a configuration the constructor
accepts) the roll performed by `reset()` is the all-hold roll, which adds
the empty dice sum instead of subtracting the penalty, so the score right
after `reset()` is the penalty `1`, not `0`. -/
theorem c6_reset_score_counterexample :
    resetE zeroDiceGame [] = .ok ({ gameOver := false, score := 1, dice := [] }, [])
    ∧ (1 : ℚ) ≠ 0 := by
  constructor
  · have ha : ([] : List ℕ) ∈ actionsList zeroDiceGame := List.mem_cons_self _ _
    rw [resetE, roll, if_pos ha]
    norm_num [zeroDiceGame, flipDuplicates, sortInt, List.insertionSort]
  · norm_num

/-- C6 (amended): for every configuration with at least one die, the score
equals `0` immediately after `reset()` completes, whatever the penalty:
`reset` sets the score to the penalty and its roll of all dice takes the
non-terminal branch, which subtracts the penalty again. -/
theorem c6_reset_score (g : Game) (drawn : List Int)
    (hd : 0 < g.dice) (hlen : drawn.length = g.dice) :
    ∃ ms d, resetE g drawn = .ok (ms, d) ∧ ms.score = 0 := by
  have ha : ([] : List ℕ) ∈ actionsList g := List.mem_cons_self _ _
  have hne : ¬ (([] : List ℕ).length = g.dice) := by
    simp only [List.length_nil]
    omega
  rw [resetE, roll, if_pos ha]
  simp only [if_neg hne]
  exact ⟨_, _, rfl, sub_self g.penalty⟩

/-- Witness for C6 (amended) at the miniature game. -/
theorem c6_reset_score_witness :
    ∃ ms d, resetE miniGame [2] = .ok (ms, d) ∧ ms.score = 0 :=
  c6_reset_score miniGame [2] (by decide) (by decide)

/-- Rolling never changes the game-over flag: `roll` contains no assignment
to `__game_over`. -/
theorem roll_gameOver_eq (g : Game) (ms : MS) (a : List ℕ) (drawn : List Int)
    (out : MS × RollRet) (h : roll g ms a drawn = .ok out) :
    out.1.gameOver = ms.gameOver := by
  rw [roll] at h
  split_ifs at h with h1 h2 h3
  · cases h; rfl
  · cases h; rfl
  · cases h; rfl

/-- Resetting clears the game-over flag. -/
theorem reset_gameOver_false (g : Game) (drawn : List Int) (ms : MS) (d : List Int)
    (h : resetE g drawn = .ok (ms, d)) : ms.gameOver = false := by
  rw [resetE] at h
  cases hro : roll g { gameOver := false, score := g.penalty, dice := List.replicate g.dice 0 }
      [] drawn with
  | error e => rw [hro] at h; cases h
  | ok p =>
    rw [hro] at h
    obtain ⟨ms', r⟩ := p
    cases r with
    | zero => cases h
    | pair dd b =>
      cases h
      exact roll_gameOver_eq g _ [] drawn _ hro

/-- An all-hold roll from a state with a cleared game-over flag takes the
terminal branch: it flips duplicates, adds the dice sum to the score, and
leaves the game-over flag cleared. -/
theorem roll_terminal (g : Game) (ms : MS) (a : List ℕ) (d : List Int)
    (hgo : ms.gameOver = false) (ha : a ∈ actionsList g) (hl : a.length = g.dice) :
    ∃ ms', roll g ms a d = .ok (ms', RollRet.pair (flipDuplicates g ms.dice) true)
      ∧ ms'.gameOver = false
      ∧ ms'.score = ms.score + ((flipDuplicates g ms.dice).sum : ℚ)
      ∧ ms'.dice = flipDuplicates g ms.dice := by
  rw [roll, if_pos ha]
  simp only [hgo, Bool.false_eq_true, if_false, if_pos hl]
  exact ⟨_, rfl, rfl, rfl, rfl⟩

/-- C10: the internal game-over flag is `false` in every machine state
reachable by `reset`/`roll` sequences (reset clears it and roll never sets
it), so the guard branch of `roll` that returns the bare `0` is unreachable;
and a second all-hold roll takes the terminal branch again, flipping
duplicates and adding the dice sum to the score a second time. -/
theorem c10_game_over_invariant :
    (∀ (g : Game) (drawn : List Int) (ms : MS) (d : List Int),
      resetE g drawn = .ok (ms, d) → ms.gameOver = false)
    ∧ (∀ (g : Game) (ms : MS) (a : List ℕ) (drawn : List Int) (out : MS × RollRet),
      roll g ms a drawn = .ok out → out.1.gameOver = ms.gameOver)
    ∧ (∀ (g : Game) (ms : MS), Reachable g ms → ms.gameOver = false)
    ∧ (∀ (g : Game) (ms : MS) (a : List ℕ) (drawn : List Int) (out : MS × RollRet),
      Reachable g ms → roll g ms a drawn = .ok out → out.2 ≠ RollRet.zero)
    ∧ (∀ (g : Game) (ms : MS) (a : List ℕ) (d d' : List Int),
      ms.gameOver = false → a ∈ actionsList g → a.length = g.dice →
      ∃ ms' ms'',
        roll g ms a d = .ok (ms', RollRet.pair (flipDuplicates g ms.dice) true)
        ∧ ms'.score = ms.score + ((flipDuplicates g ms.dice).sum : ℚ)
        ∧ roll g ms' a d' = .ok (ms'', RollRet.pair (flipDuplicates g ms'.dice) true)
        ∧ ms''.score = ms'.score + ((flipDuplicates g ms'.dice).sum : ℚ)) := by
  have hreach : ∀ (g : Game) (ms : MS), Reachable g ms → ms.gameOver = false := by
    intro g ms h
    induction h with
    | reset drawn ms d h => exact reset_gameOver_false g drawn ms d h
    | roll ms a drawn ms' r hr h ih =>
      have := roll_gameOver_eq g ms a drawn (ms', r) h
      rw [ih] at this
      exact this
  refine ⟨reset_gameOver_false, fun g ms a drawn out h => roll_gameOver_eq g ms a drawn out h,
    hreach, ?_, ?_⟩
  · intro g ms a drawn out hr h
    have hgo : ms.gameOver = false := hreach g ms hr
    rw [roll] at h
    split_ifs at h with h1 h2 h3
    · rw [hgo] at h2; cases h2
    · cases h; simp
    · cases h; simp
  · intro g ms a d d' hgo ha hl
    obtain ⟨ms1, h1, hgo1, hsc1, hd1⟩ := roll_terminal g ms a d hgo ha hl
    obtain ⟨ms2, h2, hgo2, hsc2, hd2⟩ := roll_terminal g ms1 a d' hgo1 ha hl
    exact ⟨ms1, ms2, h1, hsc1, h2, hsc2⟩

/-- Witness for C10: a concrete reachable machine state of the miniature
game has a cleared game-over flag. -/
theorem c10_game_over_invariant_witness :
    ({ gameOver := false, score := 0, dice := [1] } : MS).gameOver = false := by
  have hres : resetE miniGame [1]
      = .ok ({ gameOver := false, score := 0, dice := [1] }, [1]) := by
    rw [resetE, roll]
    norm_num [miniGame, actionsList, combos, sortInt, writeMasked,
      List.insertionSort, List.orderedInsert]
  exact c10_game_over_invariant.2.2.1 miniGame _ (Reachable.reset [1] _ [1] hres)

/-! ### Lemmas about the combinatorial enumerations -/

theorem combRep_zero {α : Type} (xs : List α) : combRep 0 xs = [[]] := rfl

theorem combRep_succ {α : Type} (k : ℕ) (xs : List α) :
    combRep (k+1) xs = xs.tails.flatMap (fun t =>
      match t with
      | [] => []
      | y :: ys => (combRep k (y :: ys)).map (fun l => y :: l)) := rfl

theorem combRep_succ_cons {α : Type} (k : ℕ) (x : α) (xs : List α) :
    combRep (k+1) (x :: xs)
      = (combRep k (x :: xs)).map (fun l => x :: l) ++ combRep (k+1) xs := by
  rw [combRep_succ k (x :: xs), List.tails_cons, List.flatMap_cons, combRep_succ k xs]

theorem length_of_mem_combRep {α : Type} :
    ∀ (k : ℕ) (xs l : List α), l ∈ combRep k xs → l.length = k := by
  intro k
  induction k with
  | zero =>
    intro xs l hl
    rw [combRep_zero] at hl
    simp only [List.mem_singleton] at hl
    subst hl
    rfl
  | succ k ih =>
    intro xs l hl
    rw [combRep_succ] at hl
    obtain ⟨t, ht, hlt⟩ := List.mem_flatMap.mp hl
    cases t with
    | nil => simp at hlt
    | cons y ys =>
      obtain ⟨l', hl', rfl⟩ := List.mem_map.mp hlt
      simp [ih _ _ hl']

theorem mem_of_mem_combRep {α : Type} :
    ∀ (k : ℕ) (xs l : List α), l ∈ combRep k xs → ∀ y ∈ l, y ∈ xs := by
  intro k
  induction k with
  | zero =>
    intro xs l hl
    rw [combRep_zero] at hl
    simp only [List.mem_singleton] at hl
    subst hl
    intro y hy
    cases hy
  | succ k ih =>
    intro xs l hl
    rw [combRep_succ] at hl
    obtain ⟨t, ht, hlt⟩ := List.mem_flatMap.mp hl
    cases t with
    | nil => simp at hlt
    | cons z zs =>
      obtain ⟨l', hl', rfl⟩ := List.mem_map.mp hlt
      have hsub : ∀ w ∈ z :: zs, w ∈ xs :=
        fun w hw => ((List.mem_tails _ _).mp ht).subset hw
      intro y hy
      rcases List.mem_cons.mp hy with h | h
      · exact hsub _ (h ▸ List.mem_cons_self z zs)
      · exact hsub _ (ih _ _ hl' y h)

theorem sum_map_flatMap {β γ : Type} (P : γ → ℚ) (l : List β) (f : β → List γ) :
    ((l.flatMap f).map P).sum = (l.map (fun a => ((f a).map P).sum)).sum := by
  induction l with
  | nil => rfl
  | cons a l ih => simp [List.flatMap_cons, List.map_append, List.sum_append, ih]

theorem combRep_cons_decomp {α : Type} (x : α) (xs : List α) :
    ∀ k : ℕ, combRep k (x :: xs) = ((List.range (k+1)).reverse).flatMap
      (fun j => (combRep (k - j) xs).map (fun t => List.replicate j x ++ t)) := by
  intro k
  induction k with
  | zero =>
    have h1 : List.range 1 = [0] := rfl
    simp [combRep_zero, h1, List.flatMap_cons]
  | succ k ih =>
    rw [combRep_succ_cons, ih]
    have hrev : (List.range (k+2)).reverse
        = ((List.range (k+1)).reverse).map Nat.succ ++ [0] := by
      rw [List.range_succ_eq_map, List.reverse_cons, ← List.map_reverse]
    rw [hrev, List.flatMap_append, List.flatMap_map, List.map_flatMap]
    congr 1
    · apply congrArg
      funext j
      rw [List.map_map]
      have harg : (k + 1 - Nat.succ j) = k - j := Nat.succ_sub_succ k j
      rw [harg]
      apply List.map_congr_left
      intro t _
      simp [Function.comp, List.replicate_succ]
    · simp

/-! ### The multinomial probabilities sum to one -/

theorem sum_map_const_mul {α : Type} (c : ℚ) (f : α → ℚ) (l : List α) :
    (l.map (fun a => c * f a)).sum = c * (l.map f).sum := by
  induction l with
  | nil => simp
  | cons a l ih => simp [ih, mul_add]

theorem sum_map_list_range (n : ℕ) (f : ℕ → ℚ) :
    ((List.range n).map f).sum = ∑ i in Finset.range n, f i := by
  induction n with
  | zero => simp
  | succ m ih =>
    rw [List.range_succ, Finset.sum_range_succ, List.map_append, List.sum_append, ih]
    simp

theorem multinomPMF_replicate_append (b : List ℚ) (j x : ℕ) (t : List ℕ)
    (hx : x < b.length) (hxt : t.count x = 0) (k : ℕ) (hk : j + t.length = k) :
    multinomPMF b k (List.replicate j x ++ t)
      = (k.choose j : ℚ) * (b.getD x 0)^j * multinomPMF b (k - j) t := by
  have hjk : j ≤ k := by omega
  have hxmem : x ∈ Finset.range b.length := Finset.mem_range.mpr hx
  have hcnt : ∀ i : ℕ, (List.replicate j x ++ t).count i = if i = x then j else t.count i := by
    intro i
    rw [List.count_append, List.count_replicate]
    by_cases h : i = x
    · subst h
      simp [hxt]
    · have hbe : (x == i) = false := beq_eq_false_iff_ne.mpr (Ne.symm h)
      rw [hbe, if_neg h]
      simp
  have hprodL : (∏ i in Finset.range b.length,
        (b.getD i 0) ^ ((List.replicate j x ++ t).count i)
          / (((List.replicate j x ++ t).count i).factorial : ℚ))
      = ((b.getD x 0) ^ j / (j.factorial : ℚ))
        * ∏ i in (Finset.range b.length).erase x,
            (b.getD i 0) ^ (t.count i) / ((t.count i).factorial : ℚ) := by
    rw [← Finset.mul_prod_erase _ _ hxmem]
    congr 1
    · rw [hcnt, if_pos rfl]
    · apply Finset.prod_congr rfl
      intro i hi
      rw [hcnt, if_neg (Finset.ne_of_mem_erase hi)]
  have hprodR : (∏ i in Finset.range b.length,
        (b.getD i 0) ^ (t.count i) / ((t.count i).factorial : ℚ))
      = ∏ i in (Finset.range b.length).erase x,
            (b.getD i 0) ^ (t.count i) / ((t.count i).factorial : ℚ) := by
    rw [← Finset.mul_prod_erase _ _ hxmem, hxt]
    simp
  have hfact : (k.factorial : ℚ)
      = (k.choose j : ℚ) * (j.factorial : ℚ) * ((k-j).factorial : ℚ) := by
    exact_mod_cast (Nat.choose_mul_factorial_mul_factorial hjk).symm
  have hjne : (j.factorial : ℚ) ≠ 0 := Nat.cast_ne_zero.mpr (Nat.factorial_ne_zero j)
  unfold multinomPMF
  rw [hprodL, hprodR, hfact]
  field_simp
  ring

theorem sum_multinomPMF (b : List ℚ) :
    ∀ (xs : List ℕ), xs.Nodup → (∀ i ∈ xs, i < b.length) →
    ∀ k : ℕ, ((combRep k xs).map (multinomPMF b k)).sum
      = ((xs.map (fun i => b.getD i 0)).sum)^k := by
  intro xs
  induction xs with
  | nil =>
    intro _ _ k
    cases k with
    | zero =>
      simp [combRep_zero, multinomPMF]
    | succ k =>
      rw [combRep_succ]
      simp [zero_pow (Nat.succ_ne_zero k)]
  | cons x xs ih =>
    intro hnd hlt k
    rw [combRep_cons_decomp, sum_map_flatMap, List.map_reverse, List.sum_reverse]
    have houter : ((List.range (k+1)).map (fun jj =>
          (((combRep (k-jj) xs).map (fun t => List.replicate jj x ++ t)).map
            (multinomPMF b k)).sum))
        = ((List.range (k+1)).map (fun jj =>
          (k.choose jj : ℚ) * (b.getD x 0)^jj
            * ((xs.map (fun i => b.getD i 0)).sum)^(k-jj))) := by
      apply List.map_congr_left
      intro j hj
      have hjk : j ≤ k := Nat.lt_succ_iff.mp (List.mem_range.mp hj)
      rw [List.map_map]
      have hinner : ((combRep (k-j) xs).map ((multinomPMF b k) ∘ (fun t => List.replicate j x ++ t)))
          = ((combRep (k-j) xs).map (fun t =>
              (k.choose j : ℚ) * ((b.getD x 0)^j * multinomPMF b (k-j) t))) := by
        apply List.map_congr_left
        intro t ht
        have hlen : t.length = k - j := length_of_mem_combRep _ _ _ ht
        have hcx : t.count x = 0 := List.count_eq_zero.mpr
          (fun hcontra => (List.nodup_cons.mp hnd).1 (mem_of_mem_combRep _ _ _ ht x hcontra))
        have := multinomPMF_replicate_append b j x t
          (hlt x (List.mem_cons_self x xs)) hcx k (by omega)
        rw [Function.comp_apply, this]
        ring
      rw [hinner, sum_map_const_mul, sum_map_const_mul,
        ih (List.nodup_cons.mp hnd).2 (fun i hi => hlt i (List.mem_cons_of_mem x hi)) (k-j)]
      ring
    rw [houter, sum_map_list_range]
    have hsum : ((x :: xs).map (fun i => b.getD i 0)).sum
        = b.getD x 0 + (xs.map (fun i => b.getD i 0)).sum := by
      simp
    rw [hsum, add_pow]
    apply Finset.sum_congr rfl
    intro j _
    ring

theorem sum_map_getD_range (b : List ℚ) :
    ((List.range b.length).map (fun i => b.getD i 0)).sum = b.sum := by
  induction b with
  | nil => simp
  | cons q bs ih =>
    rw [List.length_cons, List.range_succ_eq_map, List.map_cons, List.map_map, List.sum_cons]
    have : (List.map ((fun i => (q :: bs).getD i 0) ∘ Nat.succ) (List.range bs.length))
        = List.map (fun i => bs.getD i 0) (List.range bs.length) := by
      apply List.map_congr_left
      intro i _
      simp
    rw [this, ih]
    simp

/-- C4: for every valid state and non-terminal action of a game whose biases
sum to 1, the probability list returned by `get_next_states` sums to 1
exactly, hence certainly within the absolute tolerance `1e-9`. -/
theorem c4_probabilities_sum_to_one (g : Game) (s : List Int) (a : List ℕ)
    (hb : g.biases.sum = 1) (hblen : g.biases.length = g.sides)
    (hs : s ∈ statesList g) (ha : a ∈ actionsList g) (hl : a.length ≠ g.dice) :
    ∃ ns r ps, getNextStates g s a = .ok (ns, false, r, ps)
      ∧ ps.sum = 1 ∧ |ps.sum - 1| ≤ 1/1000000000 := by
  have hsum : ((combRep (g.dice - a.length) (List.range g.sides)).map
      (multinomPMF g.biases (g.dice - a.length))).sum = 1 := by
    rw [sum_multinomPMF g.biases (List.range g.sides) (List.nodup_range g.sides)
      (fun i hi => by rw [hblen]; exact List.mem_range.mp hi) (g.dice - a.length)]
    rw [← hblen, sum_map_getD_range, hb, one_pow]
  have hok : getNextStates g s a
      = .ok ((combRep (g.dice - a.length) g.values).map
               (fun r => some (sortInt (heldVals g s a ++ r))), false, -g.penalty,
             (combRep (g.dice - a.length) (List.range g.sides)).map
               (multinomPMF g.biases (g.dice - a.length))) := by
    rw [getNextStates, if_pos hs, if_pos ha, if_neg hl]
  exact ⟨_, _, _, hok, hsum, by rw [hsum]; norm_num⟩

/-- Witness for C4 at the miniature game, state `(1,)`, empty action. -/
theorem c4_probabilities_sum_to_one_witness :
    ∃ ns r ps, getNextStates miniGame [1] [] = .ok (ns, false, r, ps)
      ∧ ps.sum = 1 ∧ |ps.sum - 1| ≤ 1/1000000000 :=
  c4_probabilities_sum_to_one miniGame [1] []
    (by norm_num [miniGame]) (by decide) (by decide) (by decide) (by decide)

/-! ### Characterisation of the reroll enumeration -/

/-- Group of the `combRep` enumeration contributed by one suffix of the
pool: the selections beginning with the head of that suffix. -/
def combRepGroup {α : Type} (k : ℕ) : List α → List (List α)
  | [] => []
  | y :: ys => (combRep k (y :: ys)).map (fun l => y :: l)

theorem combRep_succ_group {α : Type} (k : ℕ) (xs : List α) :
    combRep (k+1) xs = xs.tails.flatMap (combRepGroup k) := by
  rw [combRep_succ]
  have h : (fun t => match t with
      | [] => ([] : List (List α))
      | y :: ys => (combRep k (y :: ys)).map (fun l => y :: l)) = combRepGroup k := by
    funext t
    cases t <;> rfl
  rw [h]

/-- Over a strictly sorted pool, `combRep k xs` contains exactly the
non-decreasing length-`k` sequences with entries drawn from the pool. -/
theorem mem_combRep_sorted_iff :
    ∀ (k : ℕ) (xs : List Int), xs.Pairwise (· < ·) → ∀ l : List Int,
      (l ∈ combRep k xs ↔ l.length = k ∧ l.Chain' (· ≤ ·) ∧ ∀ y ∈ l, y ∈ xs) := by
  intro k
  induction k with
  | zero =>
    intro xs hx l
    rw [combRep_zero]
    simp only [List.mem_singleton]
    constructor
    · rintro rfl
      exact ⟨rfl, List.chain'_nil, by intro y hy; cases hy⟩
    · rintro ⟨hlen, -, -⟩
      exact List.eq_nil_of_length_eq_zero hlen
  | succ k ih =>
    intro xs hx l
    rw [combRep_succ_group]
    constructor
    · intro hl
      obtain ⟨t, ht, hlt⟩ := List.mem_flatMap.mp hl
      cases t with
      | nil => cases hlt
      | cons y ys =>
        obtain ⟨l', hl', rfl⟩ := List.mem_map.mp hlt
        have hsuf : (y :: ys) <:+ xs := (List.mem_tails _ _).mp ht
        have hsort' : (y :: ys).Pairwise (· < ·) := hx.sublist hsuf.sublist
        obtain ⟨hlen, hch, hmem⟩ := (ih (y :: ys) hsort' l').mp hl'
        refine ⟨by simp [hlen], ?_, ?_⟩
        · rw [List.chain'_cons']
          refine ⟨?_, hch⟩
          intro z hz
          have hzmem : z ∈ y :: ys := hmem z (List.mem_of_mem_head? hz)
          rcases List.mem_cons.mp hzmem with h | h
          · exact le_of_eq h.symm
          · exact le_of_lt (List.rel_of_pairwise_cons hsort' h)
        · intro z hz
          rcases List.mem_cons.mp hz with h | h
          · exact hsuf.subset (h ▸ List.mem_cons_self y ys)
          · exact hsuf.subset (hmem z h)
    · rintro ⟨hlen, hch, hmem⟩
      cases l with
      | nil => cases hlen
      | cons y l' =>
        have hy : y ∈ xs := hmem y (List.mem_cons_self y l')
        obtain ⟨s, t, rfl⟩ := List.append_of_mem hy
        have hpw : List.Pairwise (· ≤ ·) (y :: l') := List.chain'_iff_pairwise.mp hch
        have hsplit := List.pairwise_append.mp hx
        have hmem' : ∀ z ∈ l', z ∈ y :: t := by
          intro z hz
          have hyz : y ≤ z := List.rel_of_pairwise_cons hpw hz
          rcases List.mem_append.mp (hmem z (List.mem_cons_of_mem y hz)) with h | h
          · exact absurd (hsplit.2.2 z h y (List.mem_cons_self y t))
              (not_lt.mpr hyz)
          · exact h
        have hsufyt : (y :: t) <:+ (s ++ y :: t) := ⟨s, rfl⟩
        have hsort' : (y :: t).Pairwise (· < ·) := hx.sublist hsufyt.sublist
        have hl' : l' ∈ combRep k (y :: t) := (ih (y :: t) hsort' l').mpr
          ⟨by simpa using hlen, hch.tail, hmem'⟩
        exact List.mem_flatMap.mpr ⟨y :: t, (List.mem_tails _ _).mpr ⟨s, rfl⟩,
          List.mem_map.mpr ⟨l', hl', rfl⟩⟩

/-- Over a strictly sorted pool the `combRep` enumeration has no duplicate
entries: each multiset of `k` selections is listed exactly once. -/
theorem nodup_combRep :
    ∀ (k : ℕ) (xs : List Int), xs.Pairwise (· < ·) → (combRep k xs).Nodup := by
  intro k
  induction k with
  | zero =>
    intro xs _
    rw [combRep_zero]
    simp
  | succ k ih =>
    intro xs hx
    rw [combRep_succ_group]
    apply List.nodup_flatMap.mpr
    constructor
    · intro t ht
      cases t with
      | nil => exact List.nodup_nil
      | cons y ys =>
        have hsuf : (y :: ys) <:+ xs := (List.mem_tails _ _).mp ht
        exact (ih (y :: ys) (hx.sublist hsuf.sublist)).map
          (fun _ _ h' => (List.cons.injEq _ _ _ _ ▸ h').2)
    · clear ih
      induction xs with
      | nil => simp
      | cons x xs ihx =>
        rw [List.tails_cons]
        apply List.Pairwise.cons
        · intro t ht
          cases t with
          | nil => exact List.disjoint_nil_right _
          | cons y ys =>
            have hsuf : (y :: ys) <:+ xs := (List.mem_tails _ _).mp ht
            have hxy : x < y :=
              List.rel_of_pairwise_cons hx (hsuf.subset (List.mem_cons_self y ys))
            intro l hlx hly
            obtain ⟨l₁, -, rfl⟩ := List.mem_map.mp hlx
            obtain ⟨l₂, -, he⟩ := List.mem_map.mp hly
            exact absurd ((List.cons.injEq _ _ _ _ ▸ he.symm).1) (ne_of_lt hxy)
        · exact ihx (List.pairwise_cons.mp hx).2

theorem combRep_map {α β : Type} (f : α → β) :
    ∀ (k : ℕ) (xs : List α), combRep k (xs.map f) = (combRep k xs).map (List.map f) := by
  intro k
  induction k with
  | zero =>
    intro xs
    rw [combRep_zero, combRep_zero]
    rfl
  | succ k ih =>
    intro xs
    rw [combRep_succ_group, combRep_succ_group, List.map_tails, List.flatMap_map,
      List.map_flatMap]
    apply congrArg
    funext t
    cases t with
    | nil => rfl
    | cons y ys =>
      show combRepGroup k (f y :: ys.map f) = _
      simp only [combRepGroup]
      have hmc : f y :: ys.map f = (y :: ys).map f := rfl
      rw [hmc, ih (y :: ys), List.map_map, List.map_map]
      apply List.map_congr_left
      intro l _
      simp

theorem self_eq_map_getD_range (v : List Int) :
    v = (List.range v.length).map (fun i => v.getD i 0) := by
  induction v with
  | nil => rfl
  | cons q vs ih =>
    rw [List.length_cons, List.range_succ_eq_map, List.map_cons, List.map_map]
    have h : (List.map ((fun i => (q :: vs).getD i 0) ∘ Nat.succ) (List.range vs.length))
        = List.map (fun i => vs.getD i 0) (List.range vs.length) := by
      apply List.map_congr_left
      intro i _
      simp
    rw [h, ← ih]
    rfl

theorem count_map_getD (v : List Int) (hnd : v.Nodup) :
    ∀ (l : List ℕ), (∀ y ∈ l, y < v.length) → ∀ jj, jj < v.length →
      (l.map (fun i => v.getD i 0)).count (v.getD jj 0) = l.count jj := by
  intro l
  induction l with
  | nil =>
    intro _ jj _
    rfl
  | cons y l ih =>
    intro hbound jj hjj
    rw [List.map_cons, List.count_cons, List.count_cons]
    have hy : y < v.length := hbound y (List.mem_cons_self _ _)
    rw [ih (fun z hz => hbound z (List.mem_cons_of_mem _ hz)) jj hjj]
    congr 1
    by_cases h : y = jj
    · subst h
      simp
    · have hne : v.getD y 0 ≠ v.getD jj 0 := by
        intro he
        apply h
        rw [List.getD_eq_getElem v 0 hy, List.getD_eq_getElem v 0 hjj] at he
        have := List.nodup_iff_injective_get.mp hnd (by
          show v.get ⟨y, hy⟩ = v.get ⟨jj, hjj⟩
          simpa using he)
        simpa using this
      have hb1 : (v.getD y 0 == v.getD jj 0) = false := beq_eq_false_iff_ne.mpr hne
      have hb2 : (y == jj) = false := beq_eq_false_iff_ne.mpr h
      rw [hb1, hb2]

/-- Multinomial probability of a sequence of face values, phrased as the
specification phrases it: `k! * prod over domain values v of
bias_v ^ count_v / count_v!`, the product being indexed by the positions of
the value domain. -/
def specMultinomial (g : Game) (r : List Int) : ℚ :=
  ((r.length).factorial : ℚ) * ∏ jj in Finset.range g.sides,
    (g.biases.getD jj 0) ^ (r.count (g.values.getD jj 0))
      / ((r.count (g.values.getD jj 0)).factorial : ℚ)

theorem multinomPMF_eq_spec (g : Game) (hnd : g.values.Nodup)
    (hvlen : g.values.length = g.sides) (hblen : g.biases.length = g.sides)
    (k : ℕ) (l : List ℕ) (hlk : l.length = k) (hbound : ∀ y ∈ l, y < g.sides) :
    specMultinomial g (l.map (fun i => g.values.getD i 0)) = multinomPMF g.biases k l := by
  unfold specMultinomial multinomPMF
  rw [List.length_map, hlk, hblen]
  apply congrArg
  apply Finset.prod_congr rfl
  intro jj hjj
  rw [count_map_getD g.values hnd l (fun y hy => by rw [hvlen]; exact hbound y hy) jj
    (by rw [hvlen]; exact Finset.mem_range.mp hjj)]

/-- Concrete evaluation: the miniature game's transition model on state
`(1,)` with the empty action. -/
theorem getNextStates_mini_empty1 :
    getNextStates miniGame [1] []
      = .ok ([some [1], some [2]], false, -1, [1/2, 1/2]) := by
  have h1 : ([1] : List Int) ∈ statesList miniGame := by decide
  have h2 : ([] : List ℕ) ∈ actionsList miniGame := by decide
  have h3 : ¬(([] : List ℕ).length = miniGame.dice) := by decide
  rw [getNextStates, if_pos h1, if_pos h2, if_neg h3]
  have hseqs : combRep (miniGame.dice - ([] : List ℕ).length) miniGame.values
      = [[1], [2]] := by decide
  have hidx : combRep (miniGame.dice - ([] : List ℕ).length) (List.range miniGame.sides)
      = [[0], [1]] := by decide
  show Except.ok
      ((combRep (miniGame.dice - ([] : List ℕ).length) miniGame.values).map
        (fun r => some (sortInt (heldVals miniGame [1] [] ++ r))), false,
       -miniGame.penalty,
       (combRep (miniGame.dice - ([] : List ℕ).length) (List.range miniGame.sides)).map
         (fun l => multinomPMF miniGame.biases (miniGame.dice - ([] : List ℕ).length) l))
    = Except.ok ([some [1], some [2]], false, -1, [1/2, 1/2])
  rw [hseqs, hidx]
  have hh : heldVals miniGame [1] [] = [] := by decide
  have hs1 : sortInt (heldVals miniGame [1] [] ++ [1]) = [1] := by decide
  have hs2 : sortInt (heldVals miniGame [1] [] ++ [2]) = [2] := by decide
  have hp1 : multinomPMF miniGame.biases (miniGame.dice - ([] : List ℕ).length) [0]
      = 1/2 := by
    unfold multinomPMF
    have hlen2 : (miniGame.biases).length = 2 := rfl
    rw [hlen2, Finset.prod_range_succ, Finset.prod_range_one]
    norm_num [miniGame, List.count_cons, List.count_nil]
  have hp2 : multinomPMF miniGame.biases (miniGame.dice - ([] : List ℕ).length) [1]
      = 1/2 := by
    unfold multinomPMF
    have hlen2 : (miniGame.biases).length = 2 := rfl
    rw [hlen2, Finset.prod_range_succ, Finset.prod_range_one]
    norm_num [miniGame, List.count_cons, List.count_nil]
  simp only [List.map_cons, List.map_nil, hs1, hs2, hp1, hp2]
  norm_num [miniGame]

/-- Concrete evaluation: the miniature game's transition model on state
`(2,)` with the empty action. -/
theorem getNextStates_mini_empty2 :
    getNextStates miniGame [2] []
      = .ok ([some [1], some [2]], false, -1, [1/2, 1/2]) := by
  have h1 : ([2] : List Int) ∈ statesList miniGame := by decide
  have h2 : ([] : List ℕ) ∈ actionsList miniGame := by decide
  have h3 : ¬(([] : List ℕ).length = miniGame.dice) := by decide
  rw [getNextStates, if_pos h1, if_pos h2, if_neg h3]
  have hseqs : combRep (miniGame.dice - ([] : List ℕ).length) miniGame.values
      = [[1], [2]] := by decide
  have hidx : combRep (miniGame.dice - ([] : List ℕ).length) (List.range miniGame.sides)
      = [[0], [1]] := by decide
  show Except.ok
      ((combRep (miniGame.dice - ([] : List ℕ).length) miniGame.values).map
        (fun r => some (sortInt (heldVals miniGame [2] [] ++ r))), false,
       -miniGame.penalty,
       (combRep (miniGame.dice - ([] : List ℕ).length) (List.range miniGame.sides)).map
         (fun l => multinomPMF miniGame.biases (miniGame.dice - ([] : List ℕ).length) l))
    = Except.ok ([some [1], some [2]], false, -1, [1/2, 1/2])
  rw [hseqs, hidx]
  have hs1 : sortInt (heldVals miniGame [2] [] ++ [1]) = [1] := by decide
  have hs2 : sortInt (heldVals miniGame [2] [] ++ [2]) = [2] := by decide
  have hp1 : multinomPMF miniGame.biases (miniGame.dice - ([] : List ℕ).length) [0]
      = 1/2 := by
    unfold multinomPMF
    have hlen2 : (miniGame.biases).length = 2 := rfl
    rw [hlen2, Finset.prod_range_succ, Finset.prod_range_one]
    norm_num [miniGame, List.count_cons, List.count_nil]
  have hp2 : multinomPMF miniGame.biases (miniGame.dice - ([] : List ℕ).length) [1]
      = 1/2 := by
    unfold multinomPMF
    have hlen2 : (miniGame.biases).length = 2 := rfl
    rw [hlen2, Finset.prod_range_succ, Finset.prod_range_one]
    norm_num [miniGame, List.count_cons, List.count_nil]
  simp only [List.map_cons, List.map_nil, hs1, hs2, hp1, hp2]
  norm_num [miniGame]

/-- C3: for every valid state and non-terminal action (with sorted distinct
values and validated lengths), `get_next_states` returns the non-terminal
flag, reward `-penalty`, one entry per non-decreasing length-`k` sequence
over the value domain (`k` the number of rerolled dice), each next state
being the sorted concatenation of the held values with that sequence, and
each probability being the multinomial probability of that sequence; in the
miniature game, `get_next_states((1,), ())` yields `(1,)` and `(2,)` with
probability `1/2` each, reward `-1`, terminal `false`. -/
theorem c3_nonterminal_next_states :
    (∀ (g : Game) (s : List Int) (a : List ℕ),
      g.values.Pairwise (· < ·) → g.values.length = g.sides →
      g.biases.length = g.sides →
      s ∈ statesList g → a ∈ actionsList g → a.length ≠ g.dice →
      ∃ (seqs : List (List Int)) (ps : List ℚ),
        getNextStates g s a
          = .ok (seqs.map (fun r => some (sortInt (heldVals g s a ++ r))), false,
                 -g.penalty, ps)
        ∧ (∀ l : List Int, l ∈ seqs ↔ (l.length = g.dice - a.length
              ∧ l.Chain' (· ≤ ·) ∧ ∀ y ∈ l, y ∈ g.values))
        ∧ seqs.Nodup
        ∧ ps.length = seqs.length
        ∧ (∀ i, i < seqs.length → ps.getD i 0 = specMultinomial g (seqs.getD i [])))
    ∧ getNextStates miniGame [1] []
        = .ok ([some [1], some [2]], false, -1, [1/2, 1/2]) := by
  constructor
  · intro g s a hsort hvlen hblen hs ha hl
    have hok : getNextStates g s a
        = .ok ((combRep (g.dice - a.length) g.values).map
                 (fun r => some (sortInt (heldVals g s a ++ r))),
               false, -g.penalty,
               (combRep (g.dice - a.length) (List.range g.sides)).map
                 (multinomPMF g.biases (g.dice - a.length))) := by
      rw [getNextStates, if_pos hs, if_pos ha, if_neg hl]
    have hv : g.values = (List.range g.sides).map (fun i => g.values.getD i 0) := by
      conv_lhs => rw [self_eq_map_getD_range g.values]
      rw [hvlen]
    have hseq : combRep (g.dice - a.length) g.values
        = (combRep (g.dice - a.length) (List.range g.sides)).map
            (List.map (fun i => g.values.getD i 0)) := by
      conv_lhs => rw [hv]
      exact combRep_map _ _ (List.range g.sides)
    refine ⟨combRep (g.dice - a.length) g.values,
      (combRep (g.dice - a.length) (List.range g.sides)).map
        (multinomPMF g.biases (g.dice - a.length)), hok,
      fun l => mem_combRep_sorted_iff (g.dice - a.length) g.values hsort l,
      nodup_combRep _ g.values hsort, ?_, ?_⟩
    · rw [hseq, List.length_map, List.length_map]
    · intro i hi
      have hilen : i < (combRep (g.dice - a.length) (List.range g.sides)).length := by
        rw [hseq, List.length_map] at hi
        exact hi
      have hmaplen : i < ((combRep (g.dice - a.length) (List.range g.sides)).map
          (multinomPMF g.biases (g.dice - a.length))).length := by
        rw [List.length_map]
        exact hilen
      have hips : ((combRep (g.dice - a.length) (List.range g.sides)).map
            (multinomPMF g.biases (g.dice - a.length))).getD i 0
          = multinomPMF g.biases (g.dice - a.length)
              ((combRep (g.dice - a.length) (List.range g.sides)).getD i []) := by
        rw [List.getD_eq_getElem _ _ hmaplen, List.getD_eq_getElem _ _ hilen,
          List.getElem_map]
      have hmaplen' : i < ((combRep (g.dice - a.length) (List.range g.sides)).map
          (List.map (fun i => g.values.getD i 0))).length := by
        rw [List.length_map]
        exact hilen
      have hiseq : (combRep (g.dice - a.length) g.values).getD i []
          = List.map (fun j => g.values.getD j 0)
              ((combRep (g.dice - a.length) (List.range g.sides)).getD i []) := by
        rw [hseq, List.getD_eq_getElem _ _ hmaplen', List.getD_eq_getElem _ _ hilen,
          List.getElem_map]
      have hmem : (combRep (g.dice - a.length) (List.range g.sides)).getD i []
          ∈ combRep (g.dice - a.length) (List.range g.sides) := by
        rw [List.getD_eq_getElem _ _ hilen]
        exact List.getElem_mem hilen
      have hlen : ((combRep (g.dice - a.length) (List.range g.sides)).getD i []).length
          = g.dice - a.length := length_of_mem_combRep _ _ _ hmem
      have hbound : ∀ y ∈ (combRep (g.dice - a.length) (List.range g.sides)).getD i [],
          y < g.sides := fun y hy =>
        List.mem_range.mp (mem_of_mem_combRep _ _ _ hmem y hy)
      rw [hips, hiseq]
      exact (multinomPMF_eq_spec g hsort.nodup hvlen hblen _ _ hlen hbound).symm
  · exact getNextStates_mini_empty1

/-- Witness for C3 at the miniature game, state `(1,)`, empty action. -/
theorem c3_nonterminal_next_states_witness :
    ∃ (seqs : List (List Int)) (ps : List ℚ),
      getNextStates miniGame [1] []
        = .ok (seqs.map (fun r => some (sortInt (heldVals miniGame [1] [] ++ r))), false,
               -miniGame.penalty, ps)
      ∧ (∀ l : List Int, l ∈ seqs ↔ (l.length = miniGame.dice - ([] : List ℕ).length
            ∧ l.Chain' (· ≤ ·) ∧ ∀ y ∈ l, y ∈ miniGame.values))
      ∧ seqs.Nodup
      ∧ ps.length = seqs.length
      ∧ (∀ i, i < seqs.length → ps.getD i 0 = specMultinomial miniGame (seqs.getD i [])) :=
  c3_nonterminal_next_states.1 miniGame [1] [] (by decide) (by decide) (by decide)
    (by decide) (by decide) (by decide)

/-! ### Lemmas about the agent's evaluation and improvement loops -/

theorem except_bind_ok {α β : Type} (m : Except String α) (f : α → Except String β) (b : β)
    (h : m >>= f = .ok b) : ∃ a, m = .ok a ∧ f a = .ok b := by
  cases m with
  | ok a => exact ⟨a, rfl, h⟩
  | error e => simp [Bind.bind, Except.bind] at h

theorem sweepStep_ok (g : Game) (gam th : ℚ) (pol : List Int → List ℕ)
    (acc : (List Int → ℚ) × ℚ × Bool) (s : List Int)
    (out : (List Int → ℚ) × ℚ × Bool)
    (h : sweepStep g gam th pol acc s = .ok out) :
    ∃ cand, bellmanE g gam acc.1 s (pol s) = .ok cand
      ∧ out.1 = (if acc.1 s < cand then updV acc.1 s cand else acc.1)
      ∧ out.2.1 = max acc.2.1 |acc.1 s - out.1 s|
      ∧ out.2.2 = (if out.2.1 < th then true else acc.2.2) := by
  rw [sweepStep] at h
  obtain ⟨cand, hc, hrest⟩ := except_bind_ok _ _ _ h
  simp only [Pure.pure, Except.pure, Except.ok.injEq] at hrest
  exact ⟨cand, hc, by rw [← hrest], by rw [← hrest], by rw [← hrest]⟩

theorem sweepStep_mono (g : Game) (gam th : ℚ) (pol : List Int → List ℕ)
    (acc : (List Int → ℚ) × ℚ × Bool) (s : List Int)
    (out : (List Int → ℚ) × ℚ × Bool)
    (h : sweepStep g gam th pol acc s = .ok out) :
    ∀ t, acc.1 t ≤ out.1 t := by
  obtain ⟨cand, -, h1, -, -⟩ := sweepStep_ok g gam th pol acc s out h
  intro t
  rw [h1]
  by_cases hlt : acc.1 s < cand
  · rw [if_pos hlt]
    unfold updV
    by_cases ht : t = s
    · rw [if_pos ht, ht]
      exact le_of_lt hlt
    · rw [if_neg ht]
  · rw [if_neg hlt]

theorem foldlM_sweepStep_mono (g : Game) (gam th : ℚ) (pol : List Int → List ℕ) :
    ∀ (l : List (List Int)) (acc out : (List Int → ℚ) × ℚ × Bool),
      List.foldlM (sweepStep g gam th pol) acc l = .ok out → ∀ t, acc.1 t ≤ out.1 t := by
  intro l
  induction l with
  | nil =>
    intro acc out h t
    simp only [List.foldlM_nil, Pure.pure, Except.pure, Except.ok.injEq] at h
    rw [h]
  | cons s l ih =>
    intro acc out h t
    rw [List.foldlM_cons] at h
    obtain ⟨mid, hmid, hrest⟩ := except_bind_ok _ _ _ h
    exact le_trans (sweepStep_mono g gam th pol acc s mid hmid t) (ih mid out hrest t)

theorem evalSweep_mono (g : Game) (gam th : ℚ) (v : List Int → ℚ)
    (pol : List Int → List ℕ) (out : (List Int → ℚ) × ℚ × Bool)
    (h : evalSweep g gam th v pol = .ok out) : ∀ t, v t ≤ out.1 t :=
  foldlM_sweepStep_mono g gam th pol (statesList g) (v, 0, false) out h

theorem policyEval_mono (g : Game) (gam th : ℚ) :
    ∀ (fuel : ℕ) (v : List Int → ℚ) (pol : List Int → List ℕ) (v' : List Int → ℚ),
      policyEval g gam th fuel v pol = .ok v' → ∀ t, v t ≤ v' t := by
  intro fuel
  induction fuel with
  | zero =>
    intro v pol v' h
    simp only [policyEval] at h
    cases h
  | succ fuel ih =>
    intro v pol v' h
    rw [policyEval] at h
    obtain ⟨r, hr, hrest⟩ := except_bind_ok _ _ _ h
    by_cases hcv : r.2.2 = true
    · rw [if_pos hcv] at hrest
      simp only [Pure.pure, Except.pure, Except.ok.injEq] at hrest
      intro t
      rw [← hrest]
      exact evalSweep_mono g gam th v pol r hr t
    · rw [if_neg hcv] at hrest
      intro t
      exact le_trans (evalSweep_mono g gam th v pol r hr t) (ih r.1 pol v' hrest t)

theorem policyIterLoop_mono (g : Game) (gam th : ℚ) (ef : ℕ) :
    ∀ (fuel : ℕ) (i : Int) (v : List Int → ℚ) (pol : List Int → List ℕ)
      (out : (List Int → ℚ) × (List Int → List ℕ)),
      policyIterLoop g gam th ef fuel i v pol = .ok out → ∀ t, v t ≤ out.1 t := by
  intro fuel
  induction fuel with
  | zero =>
    intro i v pol out h
    simp only [policyIterLoop] at h
    cases h
  | succ fuel ih =>
    intro i v pol out h
    rw [policyIterLoop] at h
    obtain ⟨v', hv', hrest⟩ := except_bind_ok _ _ _ h
    obtain ⟨r, hr, hrest2⟩ := except_bind_ok _ _ _ hrest
    by_cases hst : r.2.1 = true
    · rw [if_pos hst] at hrest2
      simp only [Pure.pure, Except.pure, Except.ok.injEq] at hrest2
      intro t
      rw [← hrest2]
      exact policyEval_mono g gam th ef v pol v' hv' t
    · rw [if_neg hst] at hrest2
      intro t
      exact le_trans (policyEval_mono g gam th ef v pol v' hv' t)
        (ih r.1 v' r.2.2 out hrest2 t)

/-- C7: during policy evaluation a state's value is replaced by the Bellman
candidate only when the candidate is strictly greater (all other entries
untouched); consequently every state's value is non-decreasing across one
sweep, across the sweeps of a policy evaluation, and across the whole
policy-iteration solve. -/
theorem c7_monotonic_updates :
    (∀ (g : Game) (gam th : ℚ) (pol : List Int → List ℕ)
      (acc : (List Int → ℚ) × ℚ × Bool) (s : List Int)
      (out : (List Int → ℚ) × ℚ × Bool) (cand : ℚ),
      sweepStep g gam th pol acc s = .ok out →
      bellmanE g gam acc.1 s (pol s) = .ok cand →
      (out.1 s = if acc.1 s < cand then cand else acc.1 s)
        ∧ ∀ t, t ≠ s → out.1 t = acc.1 t)
    ∧ (∀ (g : Game) (gam th : ℚ) (v : List Int → ℚ) (pol : List Int → List ℕ)
        (out : (List Int → ℚ) × ℚ × Bool),
      evalSweep g gam th v pol = .ok out → ∀ t, v t ≤ out.1 t)
    ∧ (∀ (g : Game) (gam th : ℚ) (fuel : ℕ) (v : List Int → ℚ)
        (pol : List Int → List ℕ) (v' : List Int → ℚ),
      policyEval g gam th fuel v pol = .ok v' → ∀ t, v t ≤ v' t)
    ∧ (∀ (g : Game) (gam th : ℚ) (ef fuel : ℕ) (i : Int) (v : List Int → ℚ)
        (pol : List Int → List ℕ) (out : (List Int → ℚ) × (List Int → List ℕ)),
      policyIterLoop g gam th ef fuel i v pol = .ok out → ∀ t, v t ≤ out.1 t) := by
  refine ⟨?_, fun g gam th v pol out h => evalSweep_mono g gam th v pol out h,
    fun g gam th fuel v pol v' h => policyEval_mono g gam th fuel v pol v' h,
    fun g gam th ef fuel i v pol out h => policyIterLoop_mono g gam th ef fuel i v pol out h⟩
  intro g gam th pol acc s out cand h hb
  obtain ⟨cand', hc, h1, -, -⟩ := sweepStep_ok g gam th pol acc s out h
  rw [hb] at hc
  injection hc with hc
  subst hc
  constructor
  · rw [h1]
    by_cases hlt : acc.1 s < cand
    · rw [if_pos hlt, if_pos hlt]
      unfold updV
      rw [if_pos rfl]
    · rw [if_neg hlt, if_neg hlt]
  · intro t ht
    rw [h1]
    by_cases hlt : acc.1 s < cand
    · rw [if_pos hlt]
      unfold updV
      rw [if_neg ht]
    · rw [if_neg hlt]

/-! ### Concrete evaluations on the miniature game -/

/-- Value function with state `(1,)` already at its fixed point under the
hold-all policy and state `(2,)` still at `0`. -/
def vA : List Int → ℚ := fun s => if s = [1] then 50/3 else 0

/-- Policy holding the single die in every state. -/
def piHoldMini : List Int → List ℕ := fun _ => [0]

/-- The all-zero value function. -/
def vZero : List Int → ℚ := fun _ => 0

theorem getNextStates_mini_hold1 :
    getNextStates miniGame [1] [0] = .ok ([none], true, 1, [1]) := by
  have hs : ([1] : List Int) ∈ statesList miniGame := by decide
  have ha : ([0] : List ℕ) ∈ actionsList miniGame := by decide
  have hl : ([0] : List ℕ).length = miniGame.dice := by decide
  rw [getNextStates, if_pos hs, if_pos ha, if_pos hl,
    show finalScore miniGame [1] = 1 from by decide]
  norm_num

theorem getNextStates_mini_hold2 :
    getNextStates miniGame [2] [0] = .ok ([none], true, 2, [1]) := by
  have hs : ([2] : List Int) ∈ statesList miniGame := by decide
  have ha : ([0] : List ℕ) ∈ actionsList miniGame := by decide
  have hl : ([0] : List ℕ).length = miniGame.dice := by decide
  rw [getNextStates, if_pos hs, if_pos ha, if_pos hl,
    show finalScore miniGame [2] = 2 from by decide]
  norm_num

theorem bellmanE_mini_hold1 (v : List Int → ℚ) :
    bellmanE miniGame (47/50) v [1] [0] = .ok (1 + (47/50) * v [1]) := by
  rw [bellmanE, getNextStates_mini_hold1]
  simp only [Bind.bind, Except.bind]
  norm_num
  rfl

theorem bellmanE_mini_hold2 (v : List Int → ℚ) :
    bellmanE miniGame (47/50) v [2] [0] = .ok (2 + (47/50) * v [2]) := by
  rw [bellmanE, getNextStates_mini_hold2]
  simp only [Bind.bind, Except.bind]
  norm_num
  rfl

theorem bellman_mini_T1_vA : bellmanE miniGame (47/50) vA [1] [0] = .ok (50/3) := by
  rw [bellmanE_mini_hold1]
  norm_num [vA]

theorem bellman_mini_T2_vA : bellmanE miniGame (47/50) vA [2] [0] = .ok 2 := by
  rw [bellmanE_mini_hold2]
  norm_num [vA]

theorem sweepStep_mini_1 :
    sweepStep miniGame (47/50) (1/1000) piHoldMini (vA, 0, false) [1] = .ok (vA, 0, true) := by
  rw [sweepStep]
  have hpol : piHoldMini [1] = [0] := rfl
  rw [hpol, bellman_mini_T1_vA]
  simp only [Bind.bind, Except.bind]
  have h1 : ¬(vA [1] < 50/3) := by norm_num [vA]
  rw [if_neg h1]
  norm_num
  rfl

theorem sweepStep_mini_2 :
    sweepStep miniGame (47/50) (1/1000) piHoldMini (vA, 0, true) [2]
      = .ok (updV vA [2] 2, 2, true) := by
  rw [sweepStep]
  have hpol : piHoldMini [2] = [0] := rfl
  rw [hpol, bellman_mini_T2_vA]
  simp only [Bind.bind, Except.bind]
  have h1 : vA [2] < 2 := by norm_num [vA]
  rw [if_pos h1]
  have h2 : updV vA [2] 2 [2] = 2 := by simp [updV]
  rw [h2]
  have h3 : |vA [2] - 2| = 2 := by norm_num [vA]
  rw [h3]
  norm_num
  rfl

theorem evalSweep_mini_vA :
    evalSweep miniGame (47/50) (1/1000) vA piHoldMini = .ok (updV vA [2] 2, 2, true) := by
  have hst : statesList miniGame = [[1], [2]] := by decide
  rw [evalSweep, hst, List.foldlM_cons, sweepStep_mini_1]
  simp only [Bind.bind, Except.bind]
  rw [List.foldlM_cons, sweepStep_mini_2]
  simp only [Bind.bind, Except.bind]
  rw [List.foldlM_nil]
  rfl

/-- Witness for C7: under the hold-all policy on the miniature game, one
evaluation sweep from `vA` does not decrease the value of state `(2,)`. -/
theorem c7_monotonic_updates_witness : vA [2] ≤ updV vA [2] 2 [2] :=
  c7_monotonic_updates.2.1 miniGame (47/50) (1/1000) vA piHoldMini
    (updV vA [2] 2, 2, true) evalSweep_mini_vA [2]

theorem foldlM_conv_stays_true (g : Game) (gam th : ℚ) (pol : List Int → List ℕ) :
    ∀ (l : List (List Int)) (acc out : (List Int → ℚ) × ℚ × Bool),
      List.foldlM (sweepStep g gam th pol) acc l = .ok out →
      acc.2.2 = true → out.2.2 = true := by
  intro l
  induction l with
  | nil =>
    intro acc out h hc
    simp only [List.foldlM_nil, Pure.pure, Except.pure, Except.ok.injEq] at h
    rw [← h]
    exact hc
  | cons s l ih =>
    intro acc out h hc
    rw [List.foldlM_cons] at h
    obtain ⟨mid, hmid, hrest⟩ := except_bind_ok _ _ _ h
    obtain ⟨cand, -, -, -, hconv⟩ := sweepStep_ok g gam th pol acc s mid hmid
    refine ih mid out hrest ?_
    rw [hconv, hc]
    by_cases hd : mid.2.1 < th
    · rw [if_pos hd]
    · rw [if_neg hd]

theorem foldlM_delta_stays (g : Game) (gam th : ℚ) (pol : List Int → List ℕ) :
    ∀ (l : List (List Int)) (acc out : (List Int → ℚ) × ℚ × Bool),
      List.foldlM (sweepStep g gam th pol) acc l = .ok out →
      th ≤ acc.2.1 → acc.2.2 = false → th ≤ out.2.1 ∧ out.2.2 = false := by
  intro l
  induction l with
  | nil =>
    intro acc out h hd hc
    simp only [List.foldlM_nil, Pure.pure, Except.pure, Except.ok.injEq] at h
    rw [← h]
    exact ⟨hd, hc⟩
  | cons s l ih =>
    intro acc out h hd hc
    rw [List.foldlM_cons] at h
    obtain ⟨mid, hmid, hrest⟩ := except_bind_ok _ _ _ h
    obtain ⟨cand, -, -, hdlt, hconv⟩ := sweepStep_ok g gam th pol acc s mid hmid
    have hd' : th ≤ mid.2.1 := by
      rw [hdlt]
      exact le_trans hd (le_max_left _ _)
    have hc' : mid.2.2 = false := by
      rw [hconv, if_neg (not_lt.mpr hd'), hc]
    exact ih mid out hrest hd' hc'

/-- Counterexample to C8: a policy-evaluation sweep of the miniature game
under the hold-all policy, starting from `vA`, sets the converged flag (so
the evaluation loop stops after this sweep) although the maximum absolute
change across the whole sweep is `2`, far above `theta = 0.001`: state
`(2,)` still changes by `2` after the flag has been set at state `(1,)`. -/
theorem c8_convergence_counterexample :
    evalSweep miniGame (47/50) (1/1000) vA piHoldMini = .ok (updV vA [2] 2, 2, true)
    ∧ |vA [2] - updV vA [2] 2 [2]| = 2
    ∧ ¬((2:ℚ) < 1/1000)
    ∧ policyEval miniGame (47/50) (1/1000) 1 vA piHoldMini = .ok (updV vA [2] 2) := by
  refine ⟨evalSweep_mini_vA, ?_, by norm_num, ?_⟩
  · have h2 : updV vA [2] 2 [2] = 2 := by simp [updV]
    rw [h2]
    norm_num [vA]
  · rw [show (1:ℕ) = 0 + 1 from rfl, policyEval, evalSweep_mini_vA]
    simp only [Bind.bind, Except.bind]
    rfl

/-- C8 (amended): the evaluation loop stops after exactly those sweeps in
which the running maximum change dips below `theta` at one of the per-state
checks, which happens if and only if the first processed state's absolute
change is below `theta`; the changes of the remaining states of the sweep do
not influence the stopping decision (the converged flag, once set, is never
cleared within the sweep). -/
theorem c8_convergence_amended :
    (∀ (g : Game) (gam th : ℚ) (v : List Int → ℚ) (pol : List Int → List ℕ)
      (s₀ : List Int) (rest : List (List Int)) (v' : List Int → ℚ) (dlt : ℚ)
      (conv : Bool) (cand : ℚ),
      statesList g = s₀ :: rest →
      evalSweep g gam th v pol = .ok (v', dlt, conv) →
      bellmanE g gam v s₀ (pol s₀) = .ok cand →
      (conv = true ↔ |v s₀ - (if v s₀ < cand then cand else v s₀)| < th))
    ∧ (∀ (g : Game) (gam th : ℚ) (fuel : ℕ) (v : List Int → ℚ)
        (pol : List Int → List ℕ) (r : (List Int → ℚ) × ℚ × Bool),
      evalSweep g gam th v pol = .ok r →
      policyEval g gam th (fuel+1) v pol
        = (if r.2.2 = true then .ok r.1 else policyEval g gam th fuel r.1 pol)) := by
  constructor
  · intro g gam th v pol s₀ rest v' dlt conv cand hstates hsweep hb
    rw [evalSweep, hstates, List.foldlM_cons] at hsweep
    obtain ⟨mid, hmid, hrest⟩ := except_bind_ok _ _ _ hsweep
    obtain ⟨cand', hc, h1, hdlt, hconv⟩ := sweepStep_ok g gam th pol (v, 0, false) s₀ mid hmid
    rw [hb] at hc
    injection hc with hc
    subst hc
    have hms : mid.1 s₀ = if v s₀ < cand then cand else v s₀ := by
      rw [h1]
      by_cases hlt : v s₀ < cand
      · rw [if_pos hlt, if_pos hlt]
        simp [updV]
      · rw [if_neg hlt, if_neg hlt]
    have hd : mid.2.1 = |v s₀ - (if v s₀ < cand then cand else v s₀)| := by
      rw [hdlt, hms]
      exact max_eq_right (abs_nonneg _)
    by_cases htest : |v s₀ - (if v s₀ < cand then cand else v s₀)| < th
    · have hmidc : mid.2.2 = true := by
        rw [hconv, if_pos (by rw [hd]; exact htest)]
      have := foldlM_conv_stays_true g gam th pol rest mid (v', dlt, conv) hrest hmidc
      exact ⟨fun _ => htest, fun _ => this⟩
    · have hmidc : mid.2.2 = false := by
        rw [hconv, if_neg (by rw [hd]; exact htest)]
      have := foldlM_delta_stays g gam th pol rest mid (v', dlt, conv) hrest
        (by rw [hd]; exact not_lt.mp htest) hmidc
      refine ⟨fun hcv => ?_, fun hcond => absurd hcond htest⟩
      have hf : conv = false := this.2
      rw [hf] at hcv
      cases hcv
  · intro g gam th fuel v pol r hsweep
    rw [policyEval, hsweep]
    simp only [Bind.bind, Except.bind]
    by_cases hcv : r.2.2 = true
    · rw [if_pos hcv, if_pos hcv]
      rfl
    · rw [if_neg hcv, if_neg hcv]

/-- Witness for C8 (amended) on the miniature game: the sweep from `vA`
under the hold-all policy converges exactly because the first state's
change is below `theta`. -/
theorem c8_convergence_amended_witness :
    (true = true) ↔ |vA [1] - (if vA [1] < 50/3 then 50/3 else vA [1])| < 1/1000 :=
  c8_convergence_amended.1 miniGame (47/50) (1/1000) vA piHoldMini [1] [[2]]
    (updV vA [2] 2) 2 true (50/3) (by decide) evalSweep_mini_vA bellman_mini_T1_vA

/-! ### The policy-improvement action cursor -/

theorem improveStep_eval (g : Game) (gam : ℚ) (idx : Int) (v : List Int → ℚ)
    (st : Bool) (pol : List Int → List ℕ) (s : List Int) (na : List ℕ) (val : ℚ)
    (hna : pythonGet (actionsList g) idx = .ok na)
    (hval : bellmanE g gam v s na = .ok val) :
    improveStep g gam idx v (st, pol) s
      = .ok ((if pol s ≠ (if v s < val then updP pol s na else pol) s then false else st),
             (if v s < val then updP pol s na else pol)) := by
  rw [improveStep, hna]
  simp only [Bind.bind, Except.bind]
  rw [hval]
  rfl

theorem improveStep_error (g : Game) (gam : ℚ) (idx : Int) (v : List Int → ℚ)
    (acc : Bool × (List Int → List ℕ)) (s : List Int) (e : String)
    (hna : pythonGet (actionsList g) idx = .error e) :
    improveStep g gam idx v acc s = .error e := by
  rw [improveStep, hna]
  rfl

theorem policyImprovement_index (g : Game) (gam : ℚ) (i : Int) (v : List Int → ℚ)
    (pol : List Int → List ℕ) (out : Int × Bool × (List Int → List ℕ))
    (h : policyImprovement g gam i v pol = .ok out) : out.1 = i - 1 := by
  rw [policyImprovement] at h
  obtain ⟨r, -, hpure⟩ := except_bind_ok _ _ _ h
  simp only [Pure.pure, Except.pure, Except.ok.injEq] at hpure
  rw [← hpure]

theorem pythonGet_in_range (α : Type) (l : List α) (j : Int) (d : α)
    (hge : -(l.length : Int) ≤ j) (hlt : j < l.length) :
    pythonGet l j = .ok (l.getD ((j % (l.length : Int)).toNat) d) := by
  by_cases h0 : 0 ≤ j
  · have hj : j.toNat < l.length := by omega
    have hmod : j % (l.length : Int) = j := Int.emod_eq_of_lt h0 hlt
    rw [pythonGet, if_pos h0, List.get?_eq_get hj, hmod,
      List.getD_eq_getElem l d (by omega : (j.toNat) < l.length)]
    rfl
  · have hlen : 0 < l.length := by omega
    have hj : (j + l.length).toNat < l.length := by omega
    have hmod : j % (l.length : Int) = j + l.length := by
      have h1 : (j + (l.length : Int) * 1) % (l.length : Int) = j % (l.length : Int) :=
        Int.add_mul_emod_self_left j (l.length : Int) 1
      rw [mul_one] at h1
      rw [← h1]
      exact Int.emod_eq_of_lt (by omega) (by omega)
    rw [pythonGet, if_neg h0, if_pos hge, List.get?_eq_get hj, hmod,
      List.getD_eq_getElem l d hj]
    rfl

theorem pythonGet_out_of_range (α : Type) (l : List α) (j : Int)
    (h : j < -(l.length : Int)) : pythonGet l j = .error "IndexError" := by
  rw [pythonGet, if_neg (by omega), if_neg (by omega)]

theorem policyImprovement_propagates_index_error (g : Game) (gam : ℚ) (i : Int)
    (v : List Int → ℚ) (pol : List Int → List ℕ) (e : String)
    (hne : statesList g ≠ [])
    (hpg : pythonGet (actionsList g) (i - 1) = .error e) :
    policyImprovement g gam i v pol = .error e := by
  obtain ⟨s, rest, hcons⟩ := List.exists_cons_of_ne_nil hne
  rw [policyImprovement, hcons, List.foldlM_cons,
    improveStep_error g gam (i-1) v (true, pol) s e hpg]
  rfl

/-- C9 (amended): each policy-improvement call returns the incoming cursor
decremented by one, with no reset or wraparound of its own; the python list
subscript wraps exactly once, returning `actions[j mod actionCount]` for
`-actionCount ≤ j < actionCount`, and raises an `IndexError` for
`j < -actionCount`, which the improvement call surfaces whenever the state
list is nonempty.  Hence on the `n`-th successive call the candidate is
`actions[(lastIndex - n) mod actionCount]` only while `n ≤ 2*actionCount - 1`. -/
theorem c9_action_cursor :
    (∀ (g : Game) (gam : ℚ) (i : Int) (v : List Int → ℚ)
      (pol : List Int → List ℕ) (out : Int × Bool × (List Int → List ℕ)),
      policyImprovement g gam i v pol = .ok out → out.1 = i - 1)
    ∧ (∀ (α : Type) (l : List α) (j : Int) (d : α),
      -(l.length : Int) ≤ j → j < l.length →
      pythonGet l j = .ok (l.getD ((j % (l.length : Int)).toNat) d))
    ∧ (∀ (α : Type) (l : List α) (j : Int),
      j < -(l.length : Int) → pythonGet l j = .error "IndexError")
    ∧ (∀ (g : Game) (gam : ℚ) (i : Int) (v : List Int → ℚ)
      (pol : List Int → List ℕ) (e : String),
      statesList g ≠ [] → pythonGet (actionsList g) (i - 1) = .error e →
      policyImprovement g gam i v pol = .error e) :=
  ⟨policyImprovement_index, pythonGet_in_range, pythonGet_out_of_range,
   policyImprovement_propagates_index_error⟩

theorem bellmanE_mini_empty1 :
    bellmanE miniGame (47/50) vZero [1] [] = .ok (-1) := by
  rw [bellmanE, getNextStates_mini_empty1]
  simp only [Bind.bind, Except.bind]
  have hr2 : List.range 2 = [0, 1] := rfl
  norm_num [hr2, vZero]
  rfl

theorem bellmanE_mini_empty2 :
    bellmanE miniGame (47/50) vZero [2] [] = .ok (-1) := by
  rw [bellmanE, getNextStates_mini_empty2]
  simp only [Bind.bind, Except.bind]
  have hr2 : List.range 2 = [0, 1] := rfl
  norm_num [hr2, vZero]
  rfl

theorem bellmanE_mini_hold1_vZero :
    bellmanE miniGame (47/50) vZero [1] [0] = .ok 1 := by
  rw [bellmanE_mini_hold1]
  norm_num [vZero]

theorem bellmanE_mini_hold2_vZero :
    bellmanE miniGame (47/50) vZero [2] [0] = .ok 2 := by
  rw [bellmanE_mini_hold2]
  norm_num [vZero]

theorem improve_mini_call1 :
    policyImprovement miniGame (47/50) 1 vZero piHoldMini = .ok (0, true, piHoldMini) := by
  have hst : statesList miniGame = [[1], [2]] := by decide
  have hact : actionsList miniGame = [[], [0]] := by decide
  have hpg : pythonGet (actionsList miniGame) (1 - 1) = .ok ([] : List ℕ) := by
    rw [hact]
    rfl
  have hs1 : improveStep miniGame (47/50) (1 - 1) vZero (true, piHoldMini) [1]
      = .ok (true, piHoldMini) := by
    rw [improveStep_eval miniGame (47/50) (1 - 1) vZero true piHoldMini [1] [] (-1)
      hpg bellmanE_mini_empty1]
    have hlt : ¬ (vZero [1] < -1) := by norm_num [vZero]
    rw [if_neg hlt]
    simp
  have hs2 : improveStep miniGame (47/50) (1 - 1) vZero (true, piHoldMini) [2]
      = .ok (true, piHoldMini) := by
    rw [improveStep_eval miniGame (47/50) (1 - 1) vZero true piHoldMini [2] [] (-1)
      hpg bellmanE_mini_empty2]
    have hlt : ¬ (vZero [2] < -1) := by norm_num [vZero]
    rw [if_neg hlt]
    simp
  rw [policyImprovement, hst, List.foldlM_cons, hs1]
  simp only [Bind.bind, Except.bind]
  rw [List.foldlM_cons, hs2]
  simp only [Bind.bind, Except.bind]
  rw [List.foldlM_nil]
  simp only [Pure.pure, Except.pure]
  norm_num

theorem improve_mini_call2 :
    policyImprovement miniGame (47/50) 0 vZero piHoldMini
      = .ok (-1, true, updP (updP piHoldMini [1] [0]) [2] [0]) := by
  have hst : statesList miniGame = [[1], [2]] := by decide
  have hact : actionsList miniGame = [[], [0]] := by decide
  have hpg : pythonGet (actionsList miniGame) (0 - 1) = .ok ([0] : List ℕ) := by
    rw [hact]
    rfl
  have hs1 : improveStep miniGame (47/50) (0 - 1) vZero (true, piHoldMini) [1]
      = .ok (true, updP piHoldMini [1] [0]) := by
    rw [improveStep_eval miniGame (47/50) (0 - 1) vZero true piHoldMini [1] [0] 1
      hpg bellmanE_mini_hold1_vZero]
    have hlt : vZero [1] < 1 := by norm_num [vZero]
    rw [if_pos hlt]
    simp [updP, piHoldMini]
  have hs2 : improveStep miniGame (47/50) (0 - 1) vZero (true, updP piHoldMini [1] [0]) [2]
      = .ok (true, updP (updP piHoldMini [1] [0]) [2] [0]) := by
    rw [improveStep_eval miniGame (47/50) (0 - 1) vZero true (updP piHoldMini [1] [0])
      [2] [0] 2 hpg bellmanE_mini_hold2_vZero]
    have hlt : vZero [2] < 2 := by norm_num [vZero]
    rw [if_pos hlt]
    simp [updP, piHoldMini]
  rw [policyImprovement, hst, List.foldlM_cons, hs1]
  simp only [Bind.bind, Except.bind]
  rw [List.foldlM_cons, hs2]
  simp only [Bind.bind, Except.bind]
  rw [List.foldlM_nil]
  simp only [Pure.pure, Except.pure]
  norm_num

theorem improve_mini_call3 :
    policyImprovement miniGame (47/50) (-1) vZero (updP (updP piHoldMini [1] [0]) [2] [0])
      = .ok (-2, true, updP (updP piHoldMini [1] [0]) [2] [0]) := by
  have hst : statesList miniGame = [[1], [2]] := by decide
  have hact : actionsList miniGame = [[], [0]] := by decide
  have hpg : pythonGet (actionsList miniGame) (-1 - 1) = .ok ([] : List ℕ) := by
    rw [hact]
    rfl
  have hs1 : improveStep miniGame (47/50) (-1 - 1) vZero
      (true, updP (updP piHoldMini [1] [0]) [2] [0]) [1]
      = .ok (true, updP (updP piHoldMini [1] [0]) [2] [0]) := by
    rw [improveStep_eval miniGame (47/50) (-1 - 1) vZero true
      (updP (updP piHoldMini [1] [0]) [2] [0]) [1] [] (-1) hpg bellmanE_mini_empty1]
    have hlt : ¬ (vZero [1] < -1) := by norm_num [vZero]
    rw [if_neg hlt]
    simp
  have hs2 : improveStep miniGame (47/50) (-1 - 1) vZero
      (true, updP (updP piHoldMini [1] [0]) [2] [0]) [2]
      = .ok (true, updP (updP piHoldMini [1] [0]) [2] [0]) := by
    rw [improveStep_eval miniGame (47/50) (-1 - 1) vZero true
      (updP (updP piHoldMini [1] [0]) [2] [0]) [2] [] (-1) hpg bellmanE_mini_empty2]
    have hlt : ¬ (vZero [2] < -1) := by norm_num [vZero]
    rw [if_neg hlt]
    simp
  rw [policyImprovement, hst, List.foldlM_cons, hs1]
  simp only [Bind.bind, Except.bind]
  rw [List.foldlM_cons, hs2]
  simp only [Bind.bind, Except.bind]
  rw [List.foldlM_nil]
  simp only [Pure.pure, Except.pure]
  norm_num

theorem improve_mini_call4 :
    policyImprovement miniGame (47/50) (-2) vZero (updP (updP piHoldMini [1] [0]) [2] [0])
      = .error "IndexError" := by
  apply policyImprovement_propagates_index_error
  · decide
  · have hact : actionsList miniGame = [[], [0]] := by decide
    rw [hact]
    rfl

/-- Iterate of successive `policy_improvement` calls with a fixed value
function, threading the returned action cursor and policy, as the
policy-iteration loop does between evaluations. -/
def improveCalls (g : Game) (gam : ℚ) (v : List Int → ℚ) :
    ℕ → Int → (List Int → List ℕ) →
    Except String (Int × Bool × (List Int → List ℕ))
  | 0, i, pol => .ok (i, true, pol)
  | n+1, i, pol => do
    let r ← policyImprovement g gam i v pol
    improveCalls g gam v n r.1 r.2.2

theorem improveCalls_succ (g : Game) (gam : ℚ) (v : List Int → ℚ) (n : ℕ) (i : Int)
    (pol : List Int → List ℕ) :
    improveCalls g gam v (n+1) i pol
      = (do
          let r ← policyImprovement g gam i v pol
          improveCalls g gam v n r.1 r.2.2) := rfl

/-- Counterexample to C9: on the miniature game (2 actions), starting the
cursor at the last action index 1, the fourth successive policy-improvement
call raises an `IndexError` — the decremented cursor `-3` falls below
`-actionCount` and python's negative indexing no longer wraps — although the
claim's formula `(lastIndex - n) mod actionCount = (1 - 4) mod 2 = 1` names
the perfectly valid action `actions[1]`. -/
theorem c9_action_cursor_counterexample :
    improveCalls miniGame (47/50) vZero 4 1 piHoldMini = .error "IndexError"
    ∧ ((1 : Int) - 4) % 2 = 1 := by
  constructor
  · rw [show (4:ℕ) = 3 + 1 from rfl, improveCalls_succ, improve_mini_call1]
    simp only [Bind.bind, Except.bind]
    rw [show (3:ℕ) = 2 + 1 from rfl, improveCalls_succ, improve_mini_call2]
    simp only [Bind.bind, Except.bind]
    rw [show (2:ℕ) = 1 + 1 from rfl, improveCalls_succ, improve_mini_call3]
    simp only [Bind.bind, Except.bind]
    rw [show (1:ℕ) = 0 + 1 from rfl, improveCalls_succ, improve_mini_call4]
    rfl
  · decide

/-- Witness for C9 (amended): on the miniature game the first call returns
cursor 0 = 1 - 1; subscript `-1` wraps to the last action; subscript `-3`
is an `IndexError`. -/
theorem c9_action_cursor_witness :
    ((0 : Int), true, piHoldMini).1 = (1 : Int) - 1
    ∧ pythonGet (actionsList miniGame) (-1)
        = .ok ((actionsList miniGame).getD
            (((-1) % ((actionsList miniGame).length : Int)).toNat) [])
    ∧ pythonGet (actionsList miniGame) (-3) = .error "IndexError" :=
  ⟨c9_action_cursor.1 miniGame (47/50) 1 vZero piHoldMini _ improve_mini_call1,
   c9_action_cursor.2.1 (List ℕ) (actionsList miniGame) (-1) [] (by decide) (by decide),
   c9_action_cursor.2.2.1 (List ℕ) (actionsList miniGame) (-3) (by decide)⟩
